import Mathlib

/-!
Verification of `prebuilt.py` (ChromiumOS prebuilt upload script).

Python strings are embedded as `List Char`; each Python function that the
claims mention is translated to an executable Lean definition that follows
the source line by line.  File contents are plain strings; `pyLines` models
Python's line iteration (each line stripped of its trailing newline).
-/

set_option maxRecDepth 4000

namespace Prebuilt

/-! ### String primitives (Python `str.split`, `str.join`, line iteration) -/

/-- `s.split(c)` for a one-character separator, Python semantics:
`splitChar c [] = [[]]`, and every separator starts a new segment. -/
def splitChar (c : Char) : List Char → List (List Char)
  | [] => [[]]
  | a :: rest =>
    if a = c then [] :: splitChar c rest
    else
      match splitChar c rest with
      | [] => [[a]]
      | seg :: segs => (a :: seg) :: segs

/-- `c.join(segs)`: interleave the separator between segments. -/
def joinChar (c : Char) : List (List Char) → List Char
  | [] => []
  | [s] => s
  | s :: rest => s ++ c :: joinChar c rest

/-- Python file-line iteration combined with the per-line `rstrip("\n")`
performed by `UpdateLocalFile`: the list of newline-free lines of `s`. -/
def pyLines (s : List Char) : List (List Char) :=
  let ps := splitChar '\n' s
  if ps.getLast? = some [] then ps.dropLast else ps

/-! ### UpdateLocalFile (prebuilt.py lines 83-123) -/

/-- `'"%s"' % value`: wrap a value in double quotes. -/
def quoteVal (v : List Char) : List Char := '"' :: v ++ ['"']

/-- The body of `UpdateLocalFile`'s loop over the file's lines, together
with the trailing `if not found: append` step.  `value` and `found` are the
loop variables of the source (`value` is mutated to its quoted form each
time the key is seen). -/
def processLines (key : List Char) : List (List Char) → List Char → Bool → List (List Char)
  | [], value, found => if found then [] else [key ++ '=' :: value]
  | line :: rest, value, found =>
    match splitChar '=' line with
    | [file_var, file_val] =>
      if file_var = key then
        (key ++ '=' :: quoteVal value) :: processLines key rest (quoteVal value) true
      else
        (file_var ++ '=' :: file_val) :: processLines key rest value found
    | _ => line :: processLines key rest value found

/-- `UpdateLocalFile(filename, value, key)` as a function from the file's
old contents to its new contents (the file is rewritten as
`'\n'.join(file_lines) + '\n'`). -/
def UpdateLocalFile (content value : List Char)
    (key : List Char := "PORTAGE_BINHOST".toList) : List Char :=
  joinChar '\n' (processLines key (pyLines content) value false) ++ ['\n']

example : UpdateLocalFile "".toList "v".toList "K".toList = "K=v\n".toList := by decide

example : UpdateLocalFile "K=old\nfoo\n".toList "v".toList "K".toList
    = "K=\"v\"\nfoo\n".toList := by decide

example : UpdateLocalFile "A=b".toList "v".toList "K".toList
    = "A=b\nK=v\n".toList := by decide

/-! ### Lemmas about the string primitives -/

theorem splitChar_ne_nil (c : Char) (s : List Char) : splitChar c s ≠ [] := by
  induction s with
  | nil => simp [splitChar]
  | cons a rest ih =>
    simp only [splitChar]
    split
    · simp
    · rcases h : splitChar c rest with _ | ⟨seg, segs⟩
      · exact absurd h ih
      · simp

theorem not_mem_of_mem_splitChar {c : Char} {s p : List Char}
    (hp : p ∈ splitChar c s) : c ∉ p := by
  induction s generalizing p with
  | nil =>
    simp [splitChar] at hp
    simp [hp]
  | cons a rest ih =>
    by_cases hac : a = c
    · simp only [splitChar, if_pos hac] at hp
      rcases List.mem_cons.mp hp with h | h
      · simp [h]
      · exact ih h
    · simp only [splitChar, if_neg hac] at hp
      rcases h : splitChar c rest with _ | ⟨seg, segs⟩
      · exact absurd h (splitChar_ne_nil c rest)
      · rw [h] at hp
        rcases List.mem_cons.mp hp with h2 | h2
        · subst h2
          intro hmem
          rcases List.mem_cons.mp hmem with h3 | h3
          · exact hac h3.symm
          · exact ih (h ▸ List.mem_cons_self seg segs) h3
        · exact ih (h ▸ List.mem_cons_of_mem seg h2)

theorem mem_of_mem_splitChar {c : Char} {s p : List Char}
    (hp : p ∈ splitChar c s) {x : Char} (hx : x ∈ p) : x ∈ s := by
  induction s generalizing p with
  | nil =>
    simp [splitChar] at hp
    subst hp
    simp at hx
  | cons a rest ih =>
    by_cases hac : a = c
    · simp only [splitChar, if_pos hac] at hp
      rcases List.mem_cons.mp hp with h | h
      · subst h; simp at hx
      · exact List.mem_cons_of_mem a (ih h hx)
    · simp only [splitChar, if_neg hac] at hp
      rcases h : splitChar c rest with _ | ⟨seg, segs⟩
      · exact absurd h (splitChar_ne_nil c rest)
      · rw [h] at hp
        rcases List.mem_cons.mp hp with h2 | h2
        · subst h2
          rcases List.mem_cons.mp hx with h3 | h3
          · simp [h3]
          · exact List.mem_cons_of_mem a (ih (h ▸ List.mem_cons_self seg segs) h3)
        · exact List.mem_cons_of_mem a (ih (h ▸ List.mem_cons_of_mem seg h2) hx)

theorem joinChar_cons_cons (c : Char) (a seg : List Char) (segs : List (List Char)) :
    joinChar c ((a ++ seg) :: segs) = a ++ joinChar c (seg :: segs) := by
  cases segs with
  | nil => simp [joinChar]
  | cons t ts => simp [joinChar]

theorem joinChar_splitChar (c : Char) (s : List Char) :
    joinChar c (splitChar c s) = s := by
  induction s with
  | nil => simp [splitChar, joinChar]
  | cons a rest ih =>
    by_cases hac : a = c
    · simp only [splitChar, if_pos hac]
      rcases h : splitChar c rest with _ | ⟨seg, segs⟩
      · exact absurd h (splitChar_ne_nil c rest)
      · rw [h] at ih
        have hj : joinChar c ([] :: seg :: segs) = c :: joinChar c (seg :: segs) := by
          simp [joinChar]
        rw [hj, ih, hac]
    · simp only [splitChar, if_neg hac]
      rcases h : splitChar c rest with _ | ⟨seg, segs⟩
      · exact absurd h (splitChar_ne_nil c rest)
      · rw [h] at ih
        show joinChar c ((a :: seg) :: segs) = a :: rest
        have hj := joinChar_cons_cons c [a] seg segs
        simp only [List.singleton_append] at hj
        rw [hj, ih]

theorem splitChar_of_not_mem {c : Char} {s : List Char} (h : c ∉ s) :
    splitChar c s = [s] := by
  induction s with
  | nil => simp [splitChar]
  | cons a rest ih =>
    simp only [List.mem_cons, not_or] at h
    have hne : ¬ a = c := fun hac => h.1 hac.symm
    simp only [splitChar, if_neg hne, ih h.2]

theorem splitChar_append_sep {c : Char} {a : List Char} (h : c ∉ a) (t : List Char) :
    splitChar c (a ++ c :: t) = a :: splitChar c t := by
  induction a with
  | nil => simp [splitChar]
  | cons x xs ih =>
    simp only [List.mem_cons, not_or] at h
    have hne : ¬ x = c := fun hxc => h.1 hxc.symm
    have hih := ih h.2
    simp only [List.cons_append, splitChar, if_neg hne]
    show (match splitChar c (xs ++ c :: t) with
      | [] => [[x]]
      | seg :: segs => (x :: seg) :: segs) = (x :: xs) :: splitChar c t
    rw [hih]

theorem splitChar_joinChar_concat {c : Char} :
    ∀ (ls : List (List Char)), ls ≠ [] → (∀ l ∈ ls, c ∉ l) →
      splitChar c (joinChar c ls ++ [c]) = ls ++ [[]]
  | [], h, _ => absurd rfl h
  | [l], _, hfree => by
    have : joinChar c [l] = l := by simp [joinChar]
    rw [this]
    have : l ++ [c] = l ++ c :: [] := rfl
    rw [this, splitChar_append_sep (hfree l (by simp))]
    simp [splitChar]
  | l :: l2 :: rest, _, hfree => by
    have hj : joinChar c (l :: l2 :: rest) = l ++ c :: joinChar c (l2 :: rest) := by
      simp [joinChar]
    rw [hj, List.append_assoc, List.cons_append,
      splitChar_append_sep (hfree l (by simp))]
    rw [splitChar_joinChar_concat (l2 :: rest) (by simp)
      (fun x hx => hfree x (List.mem_cons_of_mem l hx))]
    simp

/-- Round trip: reading back a file written as `'\n'.join(lines) + '\n'`
recovers exactly `lines`, provided the lines are newline-free. -/
theorem pyLines_joinChar (ls : List (List Char)) (hne : ls ≠ [])
    (hfree : ∀ l ∈ ls, '\n' ∉ l) :
    pyLines (joinChar '\n' ls ++ ['\n']) = ls := by
  unfold pyLines
  rw [splitChar_joinChar_concat ls hne hfree]
  simp

theorem not_newline_mem_pyLines {s l : List Char} (h : l ∈ pyLines s) : '\n' ∉ l := by
  simp only [pyLines] at h
  split at h
  · exact not_mem_of_mem_splitChar ((List.dropLast_sublist _).subset h)
  · exact not_mem_of_mem_splitChar h

theorem splitChar_pair {c : Char} {a b : List Char} (ha : c ∉ a) (hb : c ∉ b) :
    splitChar c (a ++ c :: b) = [a, b] := by
  rw [splitChar_append_sep ha, splitChar_of_not_mem hb]

theorem eq_free_left {line a b : List Char} (h : splitChar '=' line = [a, b]) :
    '=' ∉ a :=
  not_mem_of_mem_splitChar (by rw [h]; simp)

theorem eq_free_right {line a b : List Char} (h : splitChar '=' line = [a, b]) :
    '=' ∉ b :=
  not_mem_of_mem_splitChar (by rw [h]; simp)

/-! ### Line classification used by the claims -/

/-- A line is recognized as a `key=value` assignment for `key` when
`line.split('=')` has exactly two parts and the left part is `key`. -/
def isKeyPair (key l : List Char) : Bool :=
  match splitChar '=' l with
  | [a, _] => a == key
  | _ => false

/-- Number of lines recognized as assignments to `key`. -/
def keyCount (key : List Char) (ls : List (List Char)) : Nat :=
  (ls.filter (isKeyPair key)).length

/-- A line is foreign when it does not split into exactly one
`=`-delimited pair (`len(line.split('=')) != 2` in the source). -/
def isForeign (l : List Char) : Bool :=
  (splitChar '=' l).length != 2

theorem isKeyPair_mk {key w : List Char} (hkey : '=' ∉ key) (hw : '=' ∉ w) :
    isKeyPair key (key ++ '=' :: w) = true := by
  simp [isKeyPair, splitChar_pair hkey hw]

theorem isKeyPair_mk_ne {a b key : List Char} (ha : '=' ∉ a) (hb : '=' ∉ b)
    (hne : a ≠ key) : isKeyPair key (a ++ '=' :: b) = false := by
  simp [isKeyPair, splitChar_pair ha hb, hne]

theorem isForeign_mk {a b : List Char} (ha : '=' ∉ a) (hb : '=' ∉ b) :
    isForeign (a ++ '=' :: b) = false := by
  simp [isForeign, splitChar_pair ha hb]

/-! ### Equation lemmas and structural lemmas about `processLines` -/

theorem length_eq_two {α : Type} {l : List α} (h : l.length = 2) :
    ∃ a b, l = [a, b] := by
  match l, h with
  | [a, b], _ => exact ⟨a, b, rfl⟩

theorem processLines_nil_false (key v : List Char) :
    processLines key [] v false = [key ++ '=' :: v] := rfl

theorem processLines_nil_true (key v : List Char) :
    processLines key [] v true = [] := rfl

theorem processLines_cons_pair {line a b : List Char}
    (hs : splitChar '=' line = [a, b]) (key : List Char)
    (rest : List (List Char)) (v : List Char) (found : Bool) :
    processLines key (line :: rest) v found =
      if a = key then
        (key ++ '=' :: quoteVal v) :: processLines key rest (quoteVal v) true
      else
        (a ++ '=' :: b) :: processLines key rest v found := by
  simp only [processLines, hs]

theorem processLines_cons_foreign {line : List Char}
    (h : (splitChar '=' line).length ≠ 2) (key : List Char)
    (rest : List (List Char)) (v : List Char) (found : Bool) :
    processLines key (line :: rest) v found = line :: processLines key rest v found := by
  rcases hs : splitChar '=' line with _ | ⟨a, _ | ⟨b, _ | ⟨d, t⟩⟩⟩
  · simp only [processLines, hs]
  · simp only [processLines, hs]
  · exact absurd (by rw [hs]; rfl : (splitChar '=' line).length = 2) h
  · simp only [processLines, hs]

theorem processLines_ne_nil (key : List Char) (ls : List (List Char)) (v : List Char) :
    processLines key ls v false ≠ [] := by
  cases ls with
  | nil => rw [processLines_nil_false]; simp
  | cons line rest =>
    by_cases h2 : (splitChar '=' line).length = 2
    · obtain ⟨a, b, hs⟩ := length_eq_two h2
      rw [processLines_cons_pair hs]
      split <;> simp
    · rw [processLines_cons_foreign h2]
      simp

theorem newline_free_quoteVal {v : List Char} (hv : '\n' ∉ v) :
    '\n' ∉ quoteVal v := by
  intro hmem
  simp only [quoteVal, List.mem_cons, List.mem_append, List.mem_singleton] at hmem
  rcases hmem with (h | h) | h
  · exact absurd h (by decide)
  · exact hv h
  · exact absurd h (by decide)

theorem eq_free_quoteVal {v : List Char} (hv : '=' ∉ v) :
    '=' ∉ quoteVal v := by
  intro hmem
  simp only [quoteVal, List.mem_cons, List.mem_append, List.mem_singleton] at hmem
  rcases hmem with (h | h) | h
  · exact absurd h (by decide)
  · exact hv h
  · exact absurd h (by decide)

theorem processLines_newline_free {key : List Char} (hkey : '\n' ∉ key) :
    ∀ (ls : List (List Char)) (v : List Char) (found : Bool), '\n' ∉ v →
      (∀ l ∈ ls, '\n' ∉ l) →
      ∀ l ∈ processLines key ls v found, '\n' ∉ l := by
  intro ls
  induction ls with
  | nil =>
    intro v found hv _ l hl
    cases found with
    | false =>
      rw [processLines_nil_false] at hl
      simp only [List.mem_singleton] at hl
      subst hl
      intro hmem
      rcases List.mem_append.mp hmem with h | h
      · exact hkey h
      · rcases List.mem_cons.mp h with h | h
        · exact absurd h (by decide)
        · exact hv h
    | true =>
      rw [processLines_nil_true] at hl
      simp at hl
  | cons line rest ih =>
    intro v found hv hls l hl
    have hline : '\n' ∉ line := hls line (by simp)
    have hrest : ∀ x ∈ rest, '\n' ∉ x := fun x hx => hls x (List.mem_cons_of_mem _ hx)
    by_cases h2 : (splitChar '=' line).length = 2
    · obtain ⟨a, b, hs⟩ := length_eq_two h2
      rw [processLines_cons_pair hs] at hl
      by_cases hak : a = key
      · rw [if_pos hak] at hl
        rcases List.mem_cons.mp hl with h3 | h3
        · subst h3
          intro hmem
          rcases List.mem_append.mp hmem with h | h
          · exact hkey h
          · rcases List.mem_cons.mp h with h | h
            · exact absurd h (by decide)
            · exact newline_free_quoteVal hv h
        · exact ih (quoteVal v) true (newline_free_quoteVal hv) hrest l h3
      · rw [if_neg hak] at hl
        have hma : a ∈ splitChar '=' line := by rw [hs]; simp
        have hmb : b ∈ splitChar '=' line := by rw [hs]; simp
        rcases List.mem_cons.mp hl with h3 | h3
        · subst h3
          intro hmem
          rcases List.mem_append.mp hmem with h | h
          · exact hline (mem_of_mem_splitChar hma h)
          · rcases List.mem_cons.mp h with h | h
            · exact absurd h (by decide)
            · exact hline (mem_of_mem_splitChar hmb h)
        · exact ih v found hv hrest l h3
    · rw [processLines_cons_foreign h2] at hl
      rcases List.mem_cons.mp hl with h3 | h3
      · exact h3 ▸ hline
      · exact ih v found hv hrest l h3

theorem isKeyPair_of_split {l a b key : List Char} (hs : splitChar '=' l = [a, b]) :
    isKeyPair key l = (a == key) := by
  simp [isKeyPair, hs]

theorem isKeyPair_foreign {l : List Char} (h : (splitChar '=' l).length ≠ 2)
    (key : List Char) : isKeyPair key l = false := by
  rcases hs : splitChar '=' l with _ | ⟨a, _ | ⟨b, _ | ⟨d, t⟩⟩⟩
  · simp [isKeyPair, hs]
  · simp [isKeyPair, hs]
  · exact absurd (by rw [hs]; rfl : (splitChar '=' l).length = 2) h
  · simp [isKeyPair, hs]

theorem keyCount_nil (key : List Char) : keyCount key [] = 0 := rfl

theorem keyCount_cons (key x : List Char) (xs : List (List Char)) :
    keyCount key (x :: xs) = (if isKeyPair key x then 1 else 0) + keyCount key xs := by
  simp only [keyCount, List.filter_cons]
  split <;> simp [Nat.add_comm]

/-- Core idempotence: running the update loop a second time, from the same
initial `value`/`found` state, reproduces its own output — provided the
value is `=`-free and the key was present (or already found). -/
theorem processLines_idem (key : List Char) :
    ∀ (ls : List (List Char)) (v : List Char) (found : Bool), '=' ∉ v →
      (found = true ∨ ∃ l ∈ ls, ∃ w, splitChar '=' l = [key, w]) →
      processLines key (processLines key ls v found) v found
        = processLines key ls v found := by
  intro ls
  induction ls with
  | nil =>
    intro v found hv hw
    cases found with
    | true => rw [processLines_nil_true, processLines_nil_true]
    | false =>
      rcases hw with hf | ⟨l, hl, _⟩
      · exact absurd hf (by simp)
      · simp at hl
  | cons line rest ih =>
    intro v found hv hw
    by_cases h2 : (splitChar '=' line).length = 2
    · obtain ⟨a, b, hs⟩ := length_eq_two h2
      have ha : '=' ∉ a := eq_free_left hs
      by_cases hak : a = key
      · have hkeyfree : '=' ∉ key := hak ▸ ha
        rw [processLines_cons_pair hs, if_pos hak]
        have hsp : splitChar '=' (key ++ '=' :: quoteVal v) = [key, quoteVal v] :=
          splitChar_pair hkeyfree (eq_free_quoteVal hv)
        rw [processLines_cons_pair hsp, if_pos rfl]
        rw [ih (quoteVal v) true (eq_free_quoteVal hv) (Or.inl rfl)]
      · have hb : '=' ∉ b := eq_free_right hs
        rw [processLines_cons_pair hs, if_neg hak]
        have hsp : splitChar '=' (a ++ '=' :: b) = [a, b] := splitChar_pair ha hb
        rw [processLines_cons_pair hsp, if_neg hak]
        have hw' : found = true ∨ ∃ l ∈ rest, ∃ w, splitChar '=' l = [key, w] := by
          rcases hw with hf | ⟨l, hl, w, hlw⟩
          · exact Or.inl hf
          · rcases List.mem_cons.mp hl with h3 | h3
            · subst h3
              rw [hs] at hlw
              injection hlw with h4 _
              exact absurd h4 hak
            · exact Or.inr ⟨l, h3, w, hlw⟩
        rw [ih v found hv hw']
    · rw [processLines_cons_foreign h2, processLines_cons_foreign h2]
      have hw' : found = true ∨ ∃ l ∈ rest, ∃ w, splitChar '=' l = [key, w] := by
        rcases hw with hf | ⟨l, hl, w, hlw⟩
        · exact Or.inl hf
        · rcases List.mem_cons.mp hl with h3 | h3
          · subst h3
            exact absurd (by rw [hlw]; rfl : (splitChar '=' l).length = 2) h2
          · exact Or.inr ⟨l, h3, w, hlw⟩
      rw [ih v found hv hw']

/-- Core key-uniqueness: the update loop turns the number of `key=`-lines
into `max(old count, 1)` (for `=`-free key and value). -/
theorem processLines_keyCount {key : List Char} (hkey : '=' ∉ key) :
    ∀ (ls : List (List Char)) (v : List Char) (found : Bool), '=' ∉ v →
      keyCount key (processLines key ls v found)
        = if found then keyCount key ls else max (keyCount key ls) 1 := by
  intro ls
  induction ls with
  | nil =>
    intro v found hv
    cases found with
    | true => rw [processLines_nil_true]; simp [keyCount]
    | false =>
      rw [processLines_nil_false, keyCount_cons, isKeyPair_mk hkey hv]
      simp [keyCount]
  | cons line rest ih =>
    intro v found hv
    by_cases h2 : (splitChar '=' line).length = 2
    · obtain ⟨a, b, hs⟩ := length_eq_two h2
      have ha : '=' ∉ a := eq_free_left hs
      have hb : '=' ∉ b := eq_free_right hs
      by_cases hak : a = key
      · rw [processLines_cons_pair hs, if_pos hak, keyCount_cons, keyCount_cons,
          isKeyPair_mk hkey (eq_free_quoteVal hv), isKeyPair_of_split hs,
          ih (quoteVal v) true (eq_free_quoteVal hv)]
        cases found <;> simp [hak]
      · rw [processLines_cons_pair hs, if_neg hak, keyCount_cons, keyCount_cons,
          isKeyPair_mk_ne ha hb hak, isKeyPair_of_split hs, ih v found hv]
        have : (a == key) = false := beq_eq_false_iff_ne.mpr hak
        cases found <;> simp [this]
    · rw [processLines_cons_foreign h2, keyCount_cons, keyCount_cons,
        isKeyPair_foreign h2, ih v found hv]
      cases found <;> simp

/-- Core foreign-line preservation: the update loop leaves the subsequence
of foreign lines untouched (for `=`-free key and value). -/
theorem processLines_filter_foreign {key : List Char} (hkey : '=' ∉ key) :
    ∀ (ls : List (List Char)) (v : List Char) (found : Bool), '=' ∉ v →
      (processLines key ls v found).filter isForeign = ls.filter isForeign := by
  intro ls
  induction ls with
  | nil =>
    intro v found hv
    cases found with
    | true => rw [processLines_nil_true]
    | false =>
      rw [processLines_nil_false]
      simp [List.filter_cons, isForeign_mk hkey hv]
  | cons line rest ih =>
    intro v found hv
    by_cases h2 : (splitChar '=' line).length = 2
    · obtain ⟨a, b, hs⟩ := length_eq_two h2
      have ha : '=' ∉ a := eq_free_left hs
      have hb : '=' ∉ b := eq_free_right hs
      have hlf : isForeign line = false := by simp [isForeign, hs]
      by_cases hak : a = key
      · rw [processLines_cons_pair hs, if_pos hak]
        simp [List.filter_cons, isForeign_mk hkey (eq_free_quoteVal hv), hlf,
          ih (quoteVal v) true (eq_free_quoteVal hv)]
      · rw [processLines_cons_pair hs, if_neg hak]
        simp [List.filter_cons, isForeign_mk ha hb, hlf, ih v found hv]
    · rw [processLines_cons_foreign h2]
      have hft : isForeign line = true := by simp [isForeign, h2]
      simp [List.filter_cons, hft, ih v found hv]

/-- When every line of the file is foreign, the update loop reproduces the
file unchanged and appends the (unquoted) `key=value` line. -/
theorem processLines_all_foreign (key : List Char) :
    ∀ (ls : List (List Char)) (v : List Char),
      (∀ l ∈ ls, isForeign l = true) →
      processLines key ls v false = ls ++ [key ++ '=' :: v] := by
  intro ls
  induction ls with
  | nil =>
    intro v _
    rw [processLines_nil_false]
    rfl
  | cons line rest ih =>
    intro v hall
    have hline := hall line (by simp)
    have h2 : (splitChar '=' line).length ≠ 2 := by
      simpa [isForeign, bne_iff_ne] using hline
    rw [processLines_cons_foreign h2,
      ih v (fun l hl => hall l (List.mem_cons_of_mem _ hl))]
    rfl

/-- Reading back a file written by `UpdateLocalFile` yields exactly the
line list the loop produced (for newline-free key and value). -/
theorem pyLines_UpdateLocalFile {content value key : List Char}
    (hkey : '\n' ∉ key) (hv : '\n' ∉ value) :
    pyLines (UpdateLocalFile content value key)
      = processLines key (pyLines content) value false := by
  unfold UpdateLocalFile
  exact pyLines_joinChar _ (processLines_ne_nil key _ value)
    (processLines_newline_free hkey _ value false hv
      (fun l hl => not_newline_mem_pyLines hl))

/-! ### Claim C1 — idempotence of UpdateLocalFile -/

/-- C1 counterexample: `UpdateLocalFile` is NOT idempotent for every file
contents, key and value.  On the empty file with key `K` and value `v`, the
first application appends the unquoted line `K=v`; the second application
then replaces it with the quoted `K="v"`, so the two results differ. -/
theorem claim_C1_counterexample :
    UpdateLocalFile (UpdateLocalFile [] "v".toList "K".toList) "v".toList "K".toList
      ≠ UpdateLocalFile [] "v".toList "K".toList := by decide

/-- C1 (amended): `UpdateLocalFile` is idempotent whenever the key is
already present in the file (some line splits on `=` into exactly the key
and one right-hand side) and the value contains neither `=` nor a newline.
Applying the update twice with the same key/value then yields file contents
identical to applying it once. -/
theorem claim_C1 (content value key : List Char)
    (hv1 : '=' ∉ value) (hv2 : '\n' ∉ value)
    (hpresent : ∃ l ∈ pyLines content, ∃ w, splitChar '=' l = [key, w]) :
    UpdateLocalFile (UpdateLocalFile content value key) value key
      = UpdateLocalFile content value key := by
  obtain ⟨l, hl, w, hw⟩ := hpresent
  have hknl : '\n' ∉ key := fun hx =>
    (not_newline_mem_pyLines hl) (mem_of_mem_splitChar (by rw [hw]; simp) hx)
  show joinChar '\n'
      (processLines key (pyLines (UpdateLocalFile content value key)) value false) ++ ['\n']
    = UpdateLocalFile content value key
  rw [pyLines_UpdateLocalFile hknl hv2,
    processLines_idem key (pyLines content) value false hv1 (Or.inr ⟨l, hl, w, hw⟩)]
  rfl

theorem claim_C1_witness :
    ('=' ∉ "v".toList ∧ '\n' ∉ "v".toList
      ∧ ∃ l ∈ pyLines "K=old\nfoo\n".toList, ∃ w, splitChar '=' l = ["K".toList, w])
    ∧ UpdateLocalFile (UpdateLocalFile "K=old\nfoo\n".toList "v".toList "K".toList)
        "v".toList "K".toList
      = UpdateLocalFile "K=old\nfoo\n".toList "v".toList "K".toList :=
  ⟨⟨by decide, by decide, "K=old".toList, by decide, "old".toList, by decide⟩,
    claim_C1 _ _ _ (by decide) (by decide)
      ⟨"K=old".toList, by decide, "old".toList, by decide⟩⟩

/-! ### Claim C2 — the freshly appended line is NOT quoted (code bug) -/

/-- C2: the claim (and the function's own docstring, "Note quotes are added
automatically") says that when the key was absent the appended line is
`key="value"` with the value in double quotes.  The code only quotes the
value on the replacement path; on the append path it writes `key=value`
unquoted.  Evaluated at the failing input (empty file, key `K`, value `v`):
the output is `K=v\n`, not `K="v"\n`. -/
theorem claim_C2 :
    UpdateLocalFile [] "v".toList "K".toList = "K=v\n".toList
    ∧ UpdateLocalFile [] "v".toList "K".toList ≠ "K=\"v\"\n".toList :=
  ⟨by decide, by decide⟩

/-! ### Splitting written lines that may themselves contain newlines -/

/-- The separator distributes over an explicit separator occurrence even
when the surrounding pieces contain further separators. -/
theorem splitChar_sep_append (c : Char) (x y : List Char) :
    splitChar c (x ++ c :: y) = splitChar c x ++ splitChar c y := by
  induction x with
  | nil => simp [splitChar]
  | cons a x' ih =>
    show splitChar c (a :: (x' ++ c :: y)) = splitChar c (a :: x') ++ splitChar c y
    by_cases hac : a = c
    · simp only [splitChar, if_pos hac, ih]
      rfl
    · simp only [splitChar, if_neg hac, ih]
      rcases h : splitChar c x' with _ | ⟨seg, segs⟩
      · exact absurd h (splitChar_ne_nil c x')
      · rfl

/-- Splitting each produced line on newlines, in order (what reading the
written file back yields when the lines may contain embedded newlines). -/
def splitAll (c : Char) : List (List Char) → List (List Char)
  | [] => []
  | l :: rest => splitChar c l ++ splitAll c rest

theorem splitAll_cons (c : Char) (l : List Char) (L : List (List Char)) :
    splitAll c (l :: L) = splitChar c l ++ splitAll c L := rfl

theorem splitChar_join_concat_all (c : Char) :
    ∀ (L : List (List Char)), L ≠ [] →
      splitChar c (joinChar c L ++ [c]) = splitAll c L ++ [[]]
  | [], h => absurd rfl h
  | [l], _ => by
    have hj : joinChar c [l] = l := by simp [joinChar]
    rw [hj]
    have hc : l ++ [c] = l ++ c :: [] := rfl
    rw [hc, splitChar_sep_append]
    simp [splitAll, splitChar]
  | l :: l2 :: rest, _ => by
    have hj : joinChar c (l :: l2 :: rest) = l ++ c :: joinChar c (l2 :: rest) := by
      simp [joinChar]
    rw [hj, List.append_assoc, List.cons_append, splitChar_sep_append,
      splitChar_join_concat_all c (l2 :: rest) (by simp)]
    simp [splitAll]

/-- General round trip: reading back `'\n'.join(lines) + '\n'` yields each
line split on its own embedded newlines, concatenated in order. -/
theorem pyLines_join_flat {L : List (List Char)} (h : L ≠ []) :
    pyLines (joinChar '\n' L ++ ['\n']) = splitAll '\n' L := by
  unfold pyLines
  rw [splitChar_join_concat_all '\n' L h]
  simp

/-- Prepending separator-free text extends the first fragment only. -/
theorem splitChar_not_mem_append {c : Char} {x : List Char} (hx : c ∉ x)
    (y : List Char) :
    ∀ {f : List Char} {fs : List (List Char)}, splitChar c y = f :: fs →
      splitChar c (x ++ y) = (x ++ f) :: fs := by
  induction x with
  | nil =>
    intro f fs h
    simpa using h
  | cons a x' ih =>
    intro f fs h
    simp only [List.mem_cons, not_or] at hx
    have hne : ¬ a = c := fun hac => hx.1 hac.symm
    have hih := ih hx.2 h
    show splitChar c (a :: (x' ++ y)) = (a :: (x' ++ f)) :: fs
    simp only [splitChar, if_neg hne, hih]

theorem keyCount_append (key : List Char) (A B : List (List Char)) :
    keyCount key (A ++ B) = keyCount key A + keyCount key B := by
  simp [keyCount, List.filter_append]

/-- A list of `=`-free fragments contains no key line. -/
theorem keyCount_zero_of_eq_free {key : List Char} {gs : List (List Char)}
    (h : ∀ g ∈ gs, '=' ∉ g) : keyCount key gs = 0 := by
  induction gs with
  | nil => rfl
  | cons g gs' ih =>
    rw [keyCount_cons]
    have hg : isKeyPair key g = false := by
      simp [isKeyPair, splitChar_of_not_mem (h g (by simp))]
    rw [hg]
    simp [ih (fun x hx => h x (List.mem_cons_of_mem _ hx))]

/-- A written `key=w` line (with `=`-free key and `w`, but `w` possibly
containing newlines) contributes exactly one key line after re-reading:
its first newline fragment is `key=<first fragment of w>` and the later
fragments contain no `=`. -/
theorem keyCount_splitChar_keyline {key w : List Char}
    (hk1 : '=' ∉ key) (hk2 : '\n' ∉ key) (hw : '=' ∉ w) :
    keyCount key (splitChar '\n' (key ++ '=' :: w)) = 1 := by
  rcases hsp : splitChar '\n' w with _ | ⟨f, fs⟩
  · exact absurd hsp (splitChar_ne_nil '\n' w)
  · have hx : '\n' ∉ key ++ ['='] := by
      intro hmem
      rcases List.mem_append.mp hmem with h | h
      · exact hk2 h
      · rw [List.mem_singleton] at h
        exact absurd h (by decide)
    have heq : key ++ '=' :: w = (key ++ ['=']) ++ w := by simp
    rw [heq, splitChar_not_mem_append hx w hsp, keyCount_cons]
    have hmemf : f ∈ splitChar '\n' w := by rw [hsp]; simp
    have hfree_f : '=' ∉ f := fun hmem => hw (mem_of_mem_splitChar hmemf hmem)
    have hpair : isKeyPair key ((key ++ ['=']) ++ f) = true := by
      have hassoc : (key ++ ['=']) ++ f = key ++ '=' :: f := by simp
      rw [hassoc]
      exact isKeyPair_mk hk1 hfree_f
    rw [hpair]
    have hzero : keyCount key fs = 0 := by
      refine keyCount_zero_of_eq_free (fun g hg hmem => hw ?_)
      have hgmem : g ∈ splitChar '\n' w := by
        rw [hsp]
        exact List.mem_cons_of_mem f hg
      exact mem_of_mem_splitChar hgmem hmem
    simp [hzero]

/-- Key-line count of the re-read output, with the value allowed to
contain newlines: still `max(old count, 1)` (or unchanged when already
found), because each written key line contributes exactly one key
fragment and the remaining value fragments are `=`-free. -/
theorem processLines_keyCount_flat {key : List Char}
    (hk1 : '=' ∉ key) (hk2 : '\n' ∉ key) :
    ∀ (ls : List (List Char)) (v : List Char) (found : Bool), '=' ∉ v →
      (∀ l ∈ ls, '\n' ∉ l) →
      keyCount key (splitAll '\n' (processLines key ls v found))
        = if found then keyCount key ls else max (keyCount key ls) 1 := by
  intro ls
  induction ls with
  | nil =>
    intro v found hv _
    cases found with
    | true =>
      rw [processLines_nil_true]
      simp [splitAll, keyCount]
    | false =>
      rw [processLines_nil_false, splitAll_cons]
      have hnil : splitAll '\n' ([] : List (List Char)) = [] := rfl
      rw [hnil, List.append_nil, keyCount_splitChar_keyline hk1 hk2 hv]
      simp [keyCount]
  | cons line rest ih =>
    intro v found hv hnl
    have hline : '\n' ∉ line := hnl line (by simp)
    have hrest : ∀ x ∈ rest, '\n' ∉ x := fun x hx => hnl x (List.mem_cons_of_mem _ hx)
    by_cases h2 : (splitChar '=' line).length = 2
    · obtain ⟨a, b, hs⟩ := length_eq_two h2
      have ha : '=' ∉ a := eq_free_left hs
      have hb : '=' ∉ b := eq_free_right hs
      have hma : a ∈ splitChar '=' line := by rw [hs]; simp
      have hmb : b ∈ splitChar '=' line := by rw [hs]; simp
      by_cases hak : a = key
      · rw [processLines_cons_pair hs, if_pos hak, splitAll_cons, keyCount_append,
          keyCount_splitChar_keyline hk1 hk2 (eq_free_quoteVal hv),
          ih (quoteVal v) true (eq_free_quoteVal hv) hrest,
          keyCount_cons, isKeyPair_of_split hs]
        have hbeq : (a == key) = true := beq_iff_eq.mpr hak
        rw [hbeq]
        cases found <;> simp
      · rw [processLines_cons_pair hs, if_neg hak, splitAll_cons, keyCount_append]
        have hnlab : '\n' ∉ a ++ '=' :: b := by
          intro hmem
          rcases List.mem_append.mp hmem with h | h
          · exact hline (mem_of_mem_splitChar hma h)
          · rcases List.mem_cons.mp h with h | h
            · exact absurd h (by decide)
            · exact hline (mem_of_mem_splitChar hmb h)
        rw [splitChar_of_not_mem hnlab, keyCount_cons, keyCount_nil,
          isKeyPair_mk_ne ha hb hak, ih v found hv hrest,
          keyCount_cons, isKeyPair_of_split hs]
        have hbeq : (a == key) = false := beq_eq_false_iff_ne.mpr hak
        rw [hbeq]
        cases found <;> simp
    · rw [processLines_cons_foreign h2, splitAll_cons, keyCount_append,
        splitChar_of_not_mem hline, keyCount_cons, keyCount_nil,
        isKeyPair_foreign h2, ih v found hv hrest, keyCount_cons, isKeyPair_foreign h2]
      cases found <;> simp

/-! ### Claim C3 — exactly one line per key after an update -/

/-- C3 counterexample: on a file that already contains two assignments to
the key, `UpdateLocalFile` rewrites both (the second gets doubly quoted),
so the output contains two lines whose `=`-left side equals the key, not
exactly one. -/
theorem claim_C3_counterexample :
    keyCount "K".toList
        (pyLines (UpdateLocalFile "K=a\nK=b\n".toList "v".toList "K".toList)) = 2
    ∧ keyCount "K".toList
        (pyLines (UpdateLocalFile "K=a\nK=b\n".toList "v".toList "K".toList)) ≠ 1 :=
  ⟨by decide, by decide⟩

/-- C3 (amended): for every key containing neither `=` nor a newline,
every value containing no `=` (newlines in the value are allowed), and
every input file containing at most one line that splits into an `=`-pair
with left side equal to the key, the output of `UpdateLocalFile` contains
exactly one such line (replaced if present, appended if absent). -/
theorem claim_C3 (content value key : List Char)
    (hv1 : '=' ∉ value)
    (hk1 : '=' ∉ key) (hk2 : '\n' ∉ key)
    (hcount : keyCount key (pyLines content) ≤ 1) :
    keyCount key (pyLines (UpdateLocalFile content value key)) = 1 := by
  have hroundtrip : pyLines (UpdateLocalFile content value key)
      = splitAll '\n' (processLines key (pyLines content) value false) := by
    unfold UpdateLocalFile
    exact pyLines_join_flat (processLines_ne_nil key _ value)
  rw [hroundtrip,
    processLines_keyCount_flat hk1 hk2 (pyLines content) value false hv1
      (fun l hl => not_newline_mem_pyLines hl)]
  simp
  omega

theorem claim_C3_witness :
    ('=' ∉ "v\nw".toList ∧ '=' ∉ "K".toList ∧ '\n' ∉ "K".toList
      ∧ keyCount "K".toList (pyLines "# c\nK=a\nA=b\n".toList) ≤ 1)
    ∧ keyCount "K".toList
        (pyLines (UpdateLocalFile "# c\nK=a\nA=b\n".toList "v\nw".toList "K".toList)) = 1 :=
  ⟨⟨by decide, by decide, by decide, by decide⟩,
    claim_C3 _ _ _ (by decide) (by decide) (by decide) (by decide)⟩

/-! ### Claim C4 — foreign lines are preserved verbatim, in order -/

/-- C4 counterexample: with a value that itself contains `=`, the rewritten
assignment `K="x=y"` no longer splits into two parts, so the output's
foreign-line subsequence gains a line the input did not have; the claim
fails as universally stated. -/
theorem claim_C4_counterexample :
    (pyLines (UpdateLocalFile "K=a\n".toList "x=y".toList "K".toList)).filter isForeign
      ≠ (pyLines "K=a\n".toList).filter isForeign := by decide

/-- C4 (amended): for every key and value containing neither `=` nor a
newline, the subsequence of foreign lines (lines not splitting into exactly
one `=`-pair) of the output of `UpdateLocalFile` is identical to that of
the input: each foreign line is preserved verbatim, none is duplicated, and
their relative order is unchanged. -/
theorem claim_C4 (content value key : List Char)
    (hv1 : '=' ∉ value) (hv2 : '\n' ∉ value)
    (hk1 : '=' ∉ key) (hk2 : '\n' ∉ key) :
    (pyLines (UpdateLocalFile content value key)).filter isForeign
      = (pyLines content).filter isForeign := by
  rw [pyLines_UpdateLocalFile hk2 hv2]
  exact processLines_filter_foreign hk1 (pyLines content) value false hv1

theorem claim_C4_witness :
    ('=' ∉ "v".toList ∧ '\n' ∉ "v".toList ∧ '=' ∉ "K".toList ∧ '\n' ∉ "K".toList)
    ∧ (pyLines (UpdateLocalFile "# c\nK=a\nw==\n".toList "v".toList "K".toList)).filter
        isForeign
      = (pyLines "# c\nK=a\nw==\n".toList).filter isForeign :=
  ⟨⟨by decide, by decide, by decide, by decide⟩,
    claim_C4 _ _ _ (by decide) (by decide) (by decide) (by decide)⟩

/-! ### Claim C10 — pair recognition is exactly the two-part split -/

/-- C10: `UpdateLocalFile` recognizes a line as a key=value pair exactly
when splitting on `=` yields two parts; every line whose split is not a
two-part pair — in particular a previously written assignment whose quoted
value contains `=` — is passed through unchanged as foreign, and an update
for that same key appends a new line at the end instead of replacing the
existing one: when every input line is foreign the output is the input
lines verbatim followed by the appended `key=value` line. -/
theorem claim_C10 (content value key : List Char)
    (hall : ∀ l ∈ pyLines content, isForeign l = true) :
    UpdateLocalFile content value key
      = joinChar '\n' (pyLines content ++ [key ++ '=' :: value]) ++ ['\n'] := by
  unfold UpdateLocalFile
  rw [processLines_all_foreign key (pyLines content) value hall]

theorem claim_C10_witness :
    (∀ l ∈ pyLines "K=\"a=b\"\n".toList, isForeign l = true)
    ∧ UpdateLocalFile "K=\"a=b\"\n".toList "v".toList "K".toList
        = joinChar '\n'
            (pyLines "K=\"a=b\"\n".toList ++ ["K".toList ++ '=' :: "v".toList]) ++ ['\n'] :=
  ⟨by decide, claim_C10 _ _ _ (by decide)⟩

/-! ### DetermineMakeConfFile (prebuilt.py lines 324-350) -/

/-- `_HOST_TARGET = 'amd64'`. -/
def HOST_TARGET : List Char := "amd64".toList

/-- `_PREBUILT_BASE_DIR`. -/
def PREBUILT_BASE_DIR : List Char :=
  "src/third_party/chromiumos-overlay/chromeos/config/".toList

/-- `_BINHOST_BASE_DIR = 'src/overlays'`. -/
def BINHOST_BASE_DIR : List Char := "src/overlays".toList

/-- `os.path.join(a, b)` for POSIX paths: an absolute second component
resets the path; otherwise a `/` is inserted unless already present. -/
def posixJoin (a b : List Char) : List Char :=
  if b.head? = some '/' then b
  else if a = [] ∨ a.getLast? = some '/' then a ++ b
  else a ++ '/' :: b

/-- `_PREBUILT_MAKE_CONF['amd64']`. -/
def PREBUILT_MAKE_CONF_AMD64 : List Char :=
  posixJoin PREBUILT_BASE_DIR "make.conf.amd64-host".toList

/-- Python 2 `\w` on a byte string: `[a-zA-Z0-9_]`. -/
def isWordChar (c : Char) : Bool := c.isAlpha || c.isDigit || c == '_'

/-- Truth of `re.match('.*?_.*', target)`: some `_` occurs with no newline
before it (`.` does not match a newline). -/
def hasUnderscoreBeforeNewline : List Char → Bool
  | [] => false
  | c :: r =>
    if c = '_' then true
    else if c = '\n' then false
    else hasUnderscoreBeforeNewline r

/-- Truth of `re.match('.*?-\w+', target)`: some `-` immediately followed
by a word character occurs, with no newline before the `-`. -/
def matchDashWord : List Char → Bool
  | c :: d :: r =>
    if c = '\n' then false
    else if c = '-' && isWordChar d then true
    else matchDashWord (d :: r)
  | _ => false

/-- `target.replace('_', '-')`. -/
def replaceUnderscores (s : List Char) : List Char :=
  s.map (fun c => if c = '_' then '-' else c)

/-- The overlay-variant path form
`os.path.join(_BINHOST_BASE_DIR, 'overlay-variant-%s' % target.replace('_','-'), 'make.conf')`. -/
def variantMakeConf (target : List Char) : List Char :=
  posixJoin (posixJoin BINHOST_BASE_DIR
    ("overlay-variant-".toList ++ replaceUnderscores target)) "make.conf".toList

/-- The plain overlay path form
`os.path.join(_BINHOST_BASE_DIR, 'overlay-%s' % target, 'make.conf')`. -/
def overlayMakeConf (target : List Char) : List Char :=
  posixJoin (posixJoin BINHOST_BASE_DIR ("overlay-".toList ++ target)) "make.conf".toList

/-- `DetermineMakeConfFile(target)`; `Except.error` models raising
`UnknownBoardFormat` with the formatted message. -/
def DetermineMakeConfFile (target : List Char) : Except (List Char) (List Char) :=
  if HOST_TARGET = target then Except.ok PREBUILT_MAKE_CONF_AMD64
  else if hasUnderscoreBeforeNewline target then Except.ok (variantMakeConf target)
  else if matchDashWord target then Except.ok (overlayMakeConf target)
  else Except.error ("Unknown format: ".toList ++ target)

/-! ### Claim C6 — target classification is deterministic and total -/

/-- C6: `DetermineMakeConfFile` is a total function (hence deterministic),
and every input string falls into exactly one of four mutually exclusive
outcomes: the fixed host make.conf path when the target is the host
identifier `amd64`; the overlay-variant path form when the target matches
`.*?_.*`; the plain overlay path form when it instead matches `.*?-\w+`;
and the UnknownBoardFormat error otherwise.  In particular `lumpy_variant`
resolves to the overlay-variant form, `lumpy-board` to the plain overlay
form, and `??invalid` to the format error. -/
theorem claim_C6 :
    (∀ t : List Char,
      (HOST_TARGET = t
        ∧ DetermineMakeConfFile t = Except.ok PREBUILT_MAKE_CONF_AMD64)
      ∨ (HOST_TARGET ≠ t ∧ hasUnderscoreBeforeNewline t = true
        ∧ DetermineMakeConfFile t = Except.ok (variantMakeConf t))
      ∨ (HOST_TARGET ≠ t ∧ hasUnderscoreBeforeNewline t = false ∧ matchDashWord t = true
        ∧ DetermineMakeConfFile t = Except.ok (overlayMakeConf t))
      ∨ (HOST_TARGET ≠ t ∧ hasUnderscoreBeforeNewline t = false ∧ matchDashWord t = false
        ∧ DetermineMakeConfFile t = Except.error ("Unknown format: ".toList ++ t)))
    ∧ DetermineMakeConfFile "lumpy_variant".toList
        = Except.ok "src/overlays/overlay-variant-lumpy-variant/make.conf".toList
    ∧ DetermineMakeConfFile "lumpy-board".toList
        = Except.ok "src/overlays/overlay-lumpy-board/make.conf".toList
    ∧ DetermineMakeConfFile "??invalid".toList
        = Except.error "Unknown format: ??invalid".toList := by
  refine ⟨?_, rfl, rfl, rfl⟩
  intro t
  by_cases h1 : HOST_TARGET = t
  · exact Or.inl ⟨h1, by unfold DetermineMakeConfFile; rw [if_pos h1]⟩
  · cases h2 : hasUnderscoreBeforeNewline t with
    | true =>
      refine Or.inr (Or.inl ⟨h1, rfl, ?_⟩)
      unfold DetermineMakeConfFile
      rw [if_neg h1, if_pos h2]
    | false =>
      cases h3 : matchDashWord t with
      | true =>
        refine Or.inr (Or.inr (Or.inl ⟨h1, rfl, rfl, ?_⟩))
        unfold DetermineMakeConfFile
        rw [if_neg h1, if_neg (by simp [h2]), if_pos h3]
      | false =>
        refine Or.inr (Or.inr (Or.inr ⟨h1, rfl, rfl, ?_⟩))
        unfold DetermineMakeConfFile
        rw [if_neg h1, if_neg (by simp [h2]), if_neg (by simp [h3])]

/-! ### RevGitPushWithRetry (prebuilt.py lines 126-145) -/

/-- Observable outcome of one run of `RevGitPushWithRetry`:
whether `GitPushFailed` was raised, which attempt numbers ran the
`repo sync .` / `git push` sequence, and the list of `time.sleep`
durations performed, in order. -/
structure PushRun where
  raised : Bool
  attempted : List Nat
  sleeps : List Nat
deriving DecidableEq

/-- The `for retry in range(1, retries+1)` loop of `RevGitPushWithRetry`,
over the remaining attempt numbers.  `succ k` abstracts whether attempt
`k`'s sync-and-push sequence succeeds.  On failure with `retry < retries`
the code sleeps `5*retry`; the `for`-`else` raises when no attempt broke
out of the loop. -/
def pushGo (succ : Nat → Bool) (retries : Nat) : List Nat → PushRun
  | [] => ⟨true, [], []⟩
  | k :: rest =>
    if succ k then ⟨false, [k], []⟩
    else
      let r := pushGo succ retries rest
      ⟨r.raised, k :: r.attempted, (if k < retries then [5 * k] else []) ++ r.sleeps⟩

/-- `RevGitPushWithRetry(retries=5)` as a function of the per-attempt
success oracle. -/
def RevGitPushWithRetry (succ : Nat → Bool) (retries : Nat := 5) : PushRun :=
  pushGo succ retries (List.range' 1 retries)

theorem pushGo_spec (succ : Nat → Bool) (retries : Nat) :
    ∀ (n a : Nat),
      (pushGo succ retries (List.range' a n)).attempted
          = List.range' a (pushGo succ retries (List.range' a n)).attempted.length
      ∧ (pushGo succ retries (List.range' a n)).attempted.length ≤ n
      ∧ ((pushGo succ retries (List.range' a n)).raised = true
          ↔ ∀ k ∈ List.range' a n, succ k = false)
      ∧ (pushGo succ retries (List.range' a n)).sleeps
          = ((pushGo succ retries (List.range' a n)).attempted.filter
              (fun k => !succ k && decide (k < retries))).map (fun k => 5 * k) := by
  intro n
  induction n with
  | zero =>
    intro a
    refine ⟨rfl, Nat.le_refl 0, ?_, rfl⟩
    simp [pushGo, List.range']
  | succ m ih =>
    intro a
    have hcons : List.range' a (m + 1) = a :: List.range' (a + 1) m := rfl
    rw [hcons]
    cases hsa : succ a with
    | true =>
      have hpg : pushGo succ retries (a :: List.range' (a + 1) m) = ⟨false, [a], []⟩ := by
        simp [pushGo, hsa]
      rw [hpg]
      refine ⟨rfl, by simp, ?_, by simp [hsa]⟩
      simp only [List.mem_cons]
      constructor
      · intro h; exact absurd h (by simp)
      · intro h
        exact absurd (h a (Or.inl rfl)) (by simp [hsa])
    | false =>
      obtain ⟨ih1, ih2, ih3, ih4⟩ := ih (a + 1)
      have hpg : pushGo succ retries (a :: List.range' (a + 1) m)
          = ⟨(pushGo succ retries (List.range' (a + 1) m)).raised,
             a :: (pushGo succ retries (List.range' (a + 1) m)).attempted,
             (if a < retries then [5 * a] else [])
               ++ (pushGo succ retries (List.range' (a + 1) m)).sleeps⟩ := by
        simp [pushGo, hsa]
      rw [hpg]
      refine ⟨?_, ?_, ?_, ?_⟩
      · show a :: (pushGo succ retries (List.range' (a + 1) m)).attempted
          = List.range' a ((pushGo succ retries (List.range' (a + 1) m)).attempted.length + 1)
        have : List.range' a
            ((pushGo succ retries (List.range' (a + 1) m)).attempted.length + 1)
            = a :: List.range' (a + 1)
                (pushGo succ retries (List.range' (a + 1) m)).attempted.length := rfl
        rw [this, ← ih1]
      · simpa using Nat.succ_le_succ ih2
      · simp only [List.mem_cons]
        constructor
        · intro h k hk
          rcases hk with hk | hk
          · subst hk; exact hsa
          · exact ih3.mp h k hk
        · intro h
          exact ih3.mpr (fun k hk => h k (Or.inr hk))
      · show (if a < retries then [5 * a] else [])
            ++ (pushGo succ retries (List.range' (a + 1) m)).sleeps
          = ((a :: (pushGo succ retries (List.range' (a + 1) m)).attempted).filter
              (fun k => !succ k && decide (k < retries))).map (fun k => 5 * k)
        rw [List.filter_cons]
        by_cases har : a < retries
        · rw [if_pos har, if_pos (by simp [hsa, har])]
          simp [ih4]
        · rw [if_neg har, if_neg (by simp [hsa, har])]
          simp [ih4]

/-! ### _RetryRun, _GsUpload, RemoteUpload (prebuilt.py lines 232-299) -/

/-- An upload task: (local file, remote path). -/
abbrev UPair := List Char × List Char

/-- `_RETRIES = 3`. -/
def RETRIES : Nat := 3

/-- The `for attempt in range(_RETRIES)` loop of `_RetryRun`: `o i` is
whether the command invocation at attempt index `i` succeeds. -/
def retryRunAux (o : Nat → Bool) : Nat → Nat → Bool
  | 0, _ => false
  | fuel + 1, i => if o i then true else retryRunAux o fuel (i + 1)

/-- `_RetryRun(cmd)`: true when some of the `_RETRIES` attempts succeeds. -/
def RetryRun (o : Nat → Bool) : Bool := retryRunAux o RETRIES 0

/-- `_GsUpload(args)`: returns the arg pair when the upload failed after
retries, `None` on success. -/
def GsUpload (o : UPair → Nat → Bool) (p : UPair) : Option UPair :=
  if RetryRun (o p) then none else some p

/-- `RemoteUpload(files)`: `set(result.get(...))` over the pool's
`_GsUpload` results — the set of per-pair results, successes included as
`None`. -/
def RemoteUpload (o : UPair → Nat → Bool) (files : List UPair) :
    Finset (Option UPair) :=
  (files.map (GsUpload o)).toFinset

/-! ### Claim C5 — what RemoteUpload actually returns -/

/-- C5 counterexample: `RemoteUpload` does NOT return the empty set when
every pair succeeds.  With a single pair whose transfer always succeeds,
`_GsUpload` contributes `None`, and the returned set is `{None}` ≠ ∅. -/
theorem claim_C5_counterexample :
    GsUpload (fun _ _ => true) (['a'], ['b']) = none
    ∧ RemoteUpload (fun _ _ => true) [(['a'], ['b'])] ≠ ∅ :=
  ⟨rfl, by decide⟩

/-- C5 (amended): the result set of `RemoteUpload` contains exactly the
pairs that ultimately failed after per-pair retries (every pair is
attempted regardless of other pairs' failures), together with the sentinel
`None` exactly when at least one pair succeeded; and each pair's transfer
is retried up to 3 times (`RetryRun o = o 0 || o 1 || o 2`). -/
theorem claim_C5 (o : UPair → Nat → Bool) (files : List UPair) :
    (∀ p : UPair, some p ∈ RemoteUpload o files ↔ p ∈ files ∧ RetryRun (o p) = false)
    ∧ (none ∈ RemoteUpload o files ↔ ∃ p ∈ files, RetryRun (o p) = true)
    ∧ (∀ u : Nat → Bool, RetryRun u = (u 0 || u 1 || u 2)) := by
  refine ⟨?_, ?_, ?_⟩
  · intro p
    simp only [RemoteUpload, List.mem_toFinset, List.mem_map]
    constructor
    · rintro ⟨q, hq, hgs⟩
      unfold GsUpload at hgs
      by_cases hr : RetryRun (o q) = true
      · rw [if_pos hr] at hgs
        exact absurd hgs (by simp)
      · rw [if_neg hr] at hgs
        rw [Option.some.injEq] at hgs
        subst hgs
        exact ⟨hq, by simpa using hr⟩
    · rintro ⟨hp, hr⟩
      exact ⟨p, hp, by unfold GsUpload; rw [if_neg (by simp [hr])]⟩
  · simp only [RemoteUpload, List.mem_toFinset, List.mem_map]
    constructor
    · rintro ⟨q, hq, hgs⟩
      unfold GsUpload at hgs
      by_cases hr : RetryRun (o q) = true
      · exact ⟨q, hq, hr⟩
      · rw [if_neg hr] at hgs
        exact absurd hgs (by simp)
    · rintro ⟨q, hq, hr⟩
      exact ⟨q, hq, by unfold GsUpload; rw [if_pos hr]⟩
  · intro u
    by_cases h0 : u 0 = true <;> by_cases h1 : u 1 = true <;> by_cases h2 : u 2 = true <;>
      simp [RetryRun, RETRIES, retryRunAux, h0, h1, h2]

/-! ### UploadPrebuilt upload step and config mutations (lines 376-461) -/

/-- Error kinds raised by the modelled fragments. -/
inductive PubErr where
  | uploadFailed
  | filtersEmpty
deriving DecidableEq

/-- Observable side effects of the orchestration following the upload. -/
inductive PubEvent where
  | revGitFileEv
  | updateBinhostConfEv
  | uploadEv
deriving DecidableEq

/-- The two config files `UploadPrebuilt` may mutate: the make.conf file
handled by `RevGitFile` and the binhost conf file handled by
`UpdateBinhostConfFile` (`none` = file does not exist yet). -/
structure ConfState where
  gitFile : List Char
  binhostFile : Option (List Char)
deriving DecidableEq

/-- The upload transport chosen from the upload location's scheme:
`gs://` uses `RemoteUpload` over an outcome oracle, anything else runs the
ssh/rsync command sequence whose per-command `_RetryRun` results are
given. -/
inductive Transport where
  | gsT (o : UPair → Nat → Bool) (files : List UPair)
  | sshT (cmdResults : List Bool)

/-- Whether the upload step completes without raising `UploadFailed`:
for gs, the code raises when `len(failed_uploads) > 1 or
(None not in failed_uploads)`; for ssh/rsync, when any command of the
sequence fails after retries. -/
def uploadSucceeds : Transport → Bool
  | Transport.gsT o files =>
    let failed := RemoteUpload o files
    !(decide (1 < failed.card) || !(decide (none ∈ failed)))
  | Transport.sshT rs => rs.all id

/-- The fixed first line written when the binhost conf file is created. -/
def FULL_BINHOST_LINE : List Char := "FULL_BINHOST=\"$PORTAGE_BINHOST\"\n".toList

/-- The file effect of `RevGitFile`: `UpdateLocalFile` on the git-managed
make.conf (the surrounding sync/branch/commit/push operate on the repo,
not on the file contents). -/
def applyRevGitFile (key value : List Char) (st : ConfState) : ConfState :=
  { st with gitFile := UpdateLocalFile st.gitFile value key }

/-- The file effect of `UpdateBinhostConfFile`: create the file with the
fixed default line if absent, then `UpdateLocalFile`. -/
def applyUpdateBinhostConfFile (key value : List Char) (st : ConfState) : ConfState :=
  { st with binhostFile := some (UpdateLocalFile
      (match st.binhostFile with
       | none => FULL_BINHOST_LINE
       | some c => c) value key) }

/-- The tail of `UploadPrebuilt` from the upload step onward: raise
`UploadFailed` on upload failure, otherwise apply the two optional config
mutations in source order (`git_sync` first, then `sync_binhost_conf`),
recording which of them ran. -/
def UploadPrebuiltTail (t : Transport) (git_sync sync_binhost_conf : Bool)
    (key url_value : List Char) (st : ConfState) :
    Option PubErr × ConfState × List PubEvent :=
  if uploadSucceeds t then
    let st1 := if git_sync then applyRevGitFile key url_value st else st
    let e1 : List PubEvent := if git_sync then [PubEvent.revGitFileEv] else []
    let st2 := if sync_binhost_conf then applyUpdateBinhostConfFile key url_value st1 else st1
    let e2 : List PubEvent := if sync_binhost_conf then [PubEvent.updateBinhostConfEv] else []
    (none, st2, e1 ++ e2)
  else (some PubErr.uploadFailed, st, [])

/-! ### Claim C8 — upload failure aborts before any config mutation -/

/-- C8: whenever the upload step fails (`UploadFailed` is raised, for
either the object-storage or the remote-shell transport), `UploadPrebuilt`
performs no config mutation: neither `RevGitFile` nor
`UpdateBinhostConfFile` is invoked (empty event list) and both config
files are left exactly as they were. -/
theorem claim_C8 (t : Transport) (git_sync sync_binhost_conf : Bool)
    (key url_value : List Char) (st : ConfState)
    (hfail : uploadSucceeds t = false) :
    UploadPrebuiltTail t git_sync sync_binhost_conf key url_value st
      = (some PubErr.uploadFailed, st, []) := by
  unfold UploadPrebuiltTail
  rw [if_neg (by simp [hfail])]

theorem claim_C8_witness :
    uploadSucceeds (Transport.gsT (fun _ _ => false) [(['a'], ['b'])]) = false
    ∧ UploadPrebuiltTail (Transport.gsT (fun _ _ => false) [(['a'], ['b'])]) true true
        "K".toList "v".toList ⟨"A=b\n".toList, none⟩
      = (some PubErr.uploadFailed, ⟨"A=b\n".toList, none⟩, []) :=
  ⟨by decide, claim_C8 _ _ _ _ _ _ (by decide)⟩

/-! ### LoadPrivateFilters and main (prebuilt.py lines 186-208, 470-537) -/

/-- `os.path.basename` (POSIX): the part after the last `/`. -/
def basenameC (s : List Char) : List Char := (splitChar '/' s).getLastD []

/-- Does the second list start with the first? -/
def startsWithC : List Char → List Char → Bool
  | [], _ => true
  | _ :: _, [] => false
  | p :: ps, c :: cs => p == c && startsWithC ps cs

/-- `s.endswith(suf)`. -/
def endsWithC (suf s : List Char) : Bool := startsWithC suf.reverse s.reverse

/-- Truth of the regex fragment `.*.ebuild` on the rest of the basename:
at least one non-newline character, then the literal `ebuild`, with only
non-newline characters consumed before it. -/
def hasDotEbuild : List Char → Bool
  | [] => false
  | x :: rest =>
    !(x == '\n') && (startsWithC "ebuild".toList rest || hasDotEbuild rest)

/-- Truth of the regex fragment `\d.*.ebuild` right after the `-`. -/
def dashDigitTail : List Char → Bool
  | d :: r2 => d.isDigit && hasDotEbuild r2
  | [] => false

/-- The lazy scan of `re.match('(.*?)-\d.*.ebuild', basename)`: grow the
group from the shortest prefix, stopping at the first position where the
rest of the pattern matches; `group(1)` is the accumulated prefix. -/
def matchFilterAux (acc : List Char) : List Char → Option (List Char)
  | [] => none
  | c :: rest =>
    if c == '-' && dashDigitTail rest then some acc
    else if c == '\n' then none
    else matchFilterAux (acc ++ [c]) rest

/-- `re.match('(.*?)-\d.*.ebuild', basename)`, returning `group(1)`. -/
def matchFilter (s : List Char) : Option (List Char) := matchFilterAux [] s

/-- One iteration of `LoadPrivateFilters`' loop: the filter fragment
contributed by one file, if any. -/
def extractFilterFragment (file : List Char) : Option (List Char) :=
  if endsWithC ".ebuild".toList file then matchFilter (basenameC file) else none

/-- `LoadPrivateFilters(build_path)` as a function of the listed files;
`Except.error` models raising `FiltersEmpty`. -/
def LoadPrivateFilters (files : List (List Char)) :
    Except PubErr (List (List Char)) :=
  let filters := files.filterMap extractFilterFragment
  if filters = [] then Except.error PubErr.filtersEmpty
  else Except.ok filters

/-- The relevant sequencing of `main`: when `options.filters` is set,
`LoadPrivateFilters` runs first; only if it does not raise do the later
steps (previous-index fetches and `UploadPrebuilt` calls, abstracted as
the event list `later`) take place. -/
def mainRun (filtersFlag : Bool) (files : List (List Char))
    (later : List PubEvent) : Option PubErr × List PubEvent :=
  if filtersFlag then
    match LoadPrivateFilters files with
    | Except.error e => (some e, [])
    | Except.ok _ => (none, later)
  else (none, later)

/-! ### Claim C9 — empty filter scan is a fatal configuration error -/

/-- C9: when private-package filtering is enabled and the scan of the
private-overlay files yields no filter fragments, `LoadPrivateFilters`
raises `FiltersEmpty`, and `main` terminates with that error before any
upload or other remote side effect happens (empty event trace, whatever
the rest of the run would have done). -/
theorem claim_C9 (files : List (List Char)) (later : List PubEvent)
    (hempty : files.filterMap extractFilterFragment = []) :
    LoadPrivateFilters files = Except.error PubErr.filtersEmpty
    ∧ mainRun true files later = (some PubErr.filtersEmpty, []) := by
  have h1 : LoadPrivateFilters files = Except.error PubErr.filtersEmpty := by
    simp only [LoadPrivateFilters]
    rw [if_pos hempty]
  refine ⟨h1, ?_⟩
  simp [mainRun, h1]

theorem claim_C9_witness :
    (["README.md".toList].filterMap extractFilterFragment = [])
    ∧ LoadPrivateFilters ["README.md".toList] = Except.error PubErr.filtersEmpty
    ∧ mainRun true ["README.md".toList] [PubEvent.uploadEv]
        = (some PubErr.filtersEmpty, []) :=
  ⟨by decide,
    (claim_C9 ["README.md".toList] [PubEvent.uploadEv] (by decide)).1,
    (claim_C9 ["README.md".toList] [PubEvent.uploadEv] (by decide)).2⟩

/-! ### Claim C7 — push retry loop: attempt bound, backoff, raise iff all fail -/

/-- C7: `RevGitPushWithRetry` attempts the sync-and-push sequence at most
`retries` times (default 5), the attempts being numbered consecutively
from 1; it raises `GitPushFailed` if and only if every one of the
`retries` attempts fails; and its sleep trace is exactly one backoff of
`5 * k` (base interval times attempt number) after each failed attempt `k`
except the last possible attempt, in order. -/
theorem claim_C7 (succ : Nat → Bool) (retries : Nat) :
    (RevGitPushWithRetry succ retries).attempted
        = List.range' 1 (RevGitPushWithRetry succ retries).attempted.length
    ∧ (RevGitPushWithRetry succ retries).attempted.length ≤ retries
    ∧ ((RevGitPushWithRetry succ retries).raised = true
        ↔ ∀ k ∈ List.range' 1 retries, succ k = false)
    ∧ (RevGitPushWithRetry succ retries).sleeps
        = ((RevGitPushWithRetry succ retries).attempted.filter
            (fun k => !succ k && decide (k < retries))).map (fun k => 5 * k) :=
  pushGo_spec succ retries retries 1

end Prebuilt
